import Mathlib

/-!
Verification of the eagletrt `libmin-heap-sw` minimum-heap library
(`src/min-heap-api.c`, `include/min-heap.h`, `include/min-heap-api.h`).

The C library stores elements of a uniform byte width `data_size` in a
contiguous buffer obtained from an arena allocator at `_min_heap_init`.
All element accesses are whole-slot `memcpy`s of `data_size` bytes at
offsets `slot * data_size`, so the embedding models the buffer at slot
granularity as a total function `Nat → α`: slot `k` of the C buffer is
byte range `[k * data_size, (k+1) * data_size)`.  The internal
`_min_heap_swap` routine uses the slot at index `capacity` (one past the
last element slot) as scratch space, which the model represents
faithfully: that slot is read and written exactly where the C code does.

Nullable C pointers (`heap`, `item`, `out`, `heap->compare`,
`heap->data`) are modelled with `Option`; the user comparison callback
`int8_t (*compare)(void *, void *)` is a function `α → α → Int` of which
only the sign is ever inspected, exactly as in the C code.
-/

namespace MinHeapSW

/-- `MinHeapReturnCode` from `include/min-heap.h`. -/
inductive MinHeapReturnCode
  | OK
  | NULL_POINTER
  | EMPTY
  | FULL
  | OUT_OF_BOUNDS
deriving DecidableEq, Repr

open MinHeapReturnCode

/-- `MinHeapInterface` from `include/min-heap.h`.  `compare` and `data`
are nullable pointers in C and are therefore `Option`s here; `data`
abstracts the byte buffer slot-wise (slot `k` = bytes
`[k * data_size, (k+1) * data_size)`). -/
structure MinHeapInterface (α : Type) where
  data_size : Nat
  size : Nat
  capacity : Nat
  compare : Option (α → α → Int)
  data : Option (Nat → α)

/-- One `memcpy` of a whole element into slot `i` of the buffer. -/
def setSlot {α : Type} (d : Nat → α) (i : Nat) (v : α) : Nat → α :=
  fun j => if j = i then v else d j

/-- `_min_heap_swap` (min-heap-api.c lines 36-41): the auxiliary
element `aux` sits at slot index `capacity` (byte offset
`capacity * data_size` past `heap->data`); the three `memcpy`s are
`aux := *a`, `*a := *b`, `*b := aux`, performed in that order. -/
def _min_heap_swap {α : Type} (capacity : Nat) (d : Nat → α) (a b : Nat) : Nat → α :=
  let d1 := setSlot d capacity (d a)
  let d2 := setSlot d1 a (d1 b)
  setSlot d2 b (d2 capacity)

/-- The sift-up loop shared by `_min_heap_insert` (lines 109-117) and the
up-heapify branch of `_min_heap_remove` (lines 149-157):
`while (cur != 0 && compare(data[cur], data[parent]) < 0)` swap `cur`
with `parent = (cur-1)/2` and ascend.  The loop index strictly
decreases, so `fuel := cur` bounds the iteration count; when `fuel = 0`
the invariant `cur ≤ fuel` forces `cur = 0` and the C loop guard is
false as well, so the fuel never truncates the loop. -/
def siftUpFuel {α : Type} (cmp : α → α → Int) (capacity : Nat) :
    Nat → (Nat → α) → Nat → (Nat → α)
  | 0, d, _ => d
  | fuel + 1, d, cur =>
    if cur ≠ 0 ∧ cmp (d cur) (d ((cur - 1) / 2)) < 0 then
      siftUpFuel cmp capacity fuel
        (_min_heap_swap capacity d cur ((cur - 1) / 2)) ((cur - 1) / 2)
    else d

/-- The down-heapify loop of `_min_heap_remove` (lines 160-188):
`child` is the left child when there is no right child, otherwise the
smaller of the two children; the loop runs
`while (r < size && compare(data[child], data[index]) < 0)`, swapping
`index` with `child` and descending; after the loop, if a left child
exists that is smaller than the current node, one final swap with
`child` is performed.  The loop index strictly increases and stays below
`size` while looping, so `fuel := size - index` bounds the iteration
count; when `fuel = 0` the invariant `size - index ≤ fuel` gives
`index ≥ size`, where the C loop guard and the final `l < size` check
are both false, so the fuel never truncates the loop. -/
def siftDownFuel {α : Type} (cmp : α → α → Int) (capacity size : Nat) :
    Nat → (Nat → α) → Nat → (Nat → α)
  | 0, d, _ => d
  | fuel + 1, d, index =>
    let l := 2 * index + 1
    let r := 2 * index + 2
    let child := if r ≥ size then l else if cmp (d l) (d r) < 0 then l else r
    if r < size ∧ cmp (d child) (d index) < 0 then
      siftDownFuel cmp capacity size fuel (_min_heap_swap capacity d index child) child
    else if l < size ∧ cmp (d l) (d index) < 0 then
      _min_heap_swap capacity d index child
    else d

/-- The number of element slots `_min_heap_init` (line 55) requests from
the arena: `arena_allocator_api_calloc(arena, data_size, capacity)`
asks for `capacity` zero-initialized slots of `data_size` bytes each
(the arena allocator is an external collaborator; per spec §4.2 its
`calloc` returns a contiguous zero-initialized block of exactly the
requested size). -/
def allocRequestSlots (capacity : Nat) : Nat := capacity

/-- The heap state produced by a successful `_min_heap_init`
(lines 43-59): all metadata fields are bound and the buffer returned by
the arena is zero-initialized (`zero` stands for the all-zero-bytes
element) with `size = 0`. -/
def freshHeap (α : Type) (data_size capacity : Nat)
    (cmp : α → α → Int) (zero : α) : MinHeapInterface α :=
  { data_size := data_size
    size := 0
    capacity := capacity
    compare := some cmp
    data := some (fun _ => zero) }

/-- `_min_heap_size` (lines 61-63). -/
def _min_heap_size {α : Type} (heap : Option (MinHeapInterface α)) : Nat :=
  match heap with
  | none => 0
  | some h => h.size

/-- `_min_heap_is_empty` (lines 65-67). -/
def _min_heap_is_empty {α : Type} (heap : Option (MinHeapInterface α)) : Bool :=
  match heap with
  | none => true
  | some h => decide (h.size = 0)

/-- `_min_heap_is_full` (lines 69-71). -/
def _min_heap_is_full {α : Type} (heap : Option (MinHeapInterface α)) : Bool :=
  match heap with
  | none => true
  | some h => decide (h.size ≥ h.capacity)

/-- `_min_heap_top` (lines 73-80).  `outPresent` models whether the
`out` pointer is non-null; the copied element is returned as the second
component (the C function writes it through `out`). -/
def _min_heap_top {α : Type} (heap : Option (MinHeapInterface α)) (outPresent : Bool) :
    MinHeapReturnCode × Option α :=
  match heap with
  | none => (NULL_POINTER, none)
  | some h =>
    if outPresent = false then (NULL_POINTER, none)
    else
      match h.data with
      | none => (NULL_POINTER, none)
      | some d =>
        if h.size = 0 then (EMPTY, none)
        else (OK, some (d 0))

/-- `_min_heap_insert` (lines 95-119): null checks, `FULL` when
`size == capacity`, otherwise copy the item into slot `size`, increment
`size` and sift up from the inserted slot. -/
def _min_heap_insert {α : Type} (heap : Option (MinHeapInterface α)) (item : Option α) :
    MinHeapReturnCode × Option (MinHeapInterface α) :=
  match heap with
  | none => (NULL_POINTER, none)
  | some h =>
    match item, h.compare, h.data with
    | some it, some cmp, some d =>
      if h.size = h.capacity then (FULL, some h)
      else
        let cur := h.size
        let d0 := setSlot d cur it
        let d1 := siftUpFuel cmp h.capacity cur d0 cur
        (OK, some { h with size := h.size + 1, data := some d1 })
    | _, _, _ => (NULL_POINTER, some h)

/-- `_min_heap_remove` (lines 121-190).  The second component is the
heap reachable through the `heap` pointer after the call, the third is
the value copied through `out` (if requested).  When `heap->data` is
null with a non-empty heap the C code dereferences a null pointer
(undefined behavior, no check exists at lines 121-127); that unreachable
path is marked by returning `none` for the heap. -/
def _min_heap_remove {α : Type} (heap : Option (MinHeapInterface α)) (index : Nat)
    (outPresent : Bool) :
    MinHeapReturnCode × Option (MinHeapInterface α) × Option α :=
  match heap with
  | none => (NULL_POINTER, none, none)
  | some h =>
    match h.compare with
    | none => (NULL_POINTER, some h, none)
    | some cmp =>
      if h.size = 0 then (EMPTY, some h, none)
      else if index ≥ h.size then (OUT_OF_BOUNDS, some h, none)
      else
        match h.data with
        | none => (NULL_POINTER, none, none)
        | some d =>
          let d0 := if h.size > 1 then _min_heap_swap h.capacity d index (h.size - 1) else d
          let newSize := h.size - 1
          let outv := if outPresent then some (d0 newSize) else none
          if index = newSize then
            (OK, some { h with size := newSize, data := some d0 }, outv)
          else
            let c := cmp (d0 index) (d0 newSize)
            if c < 0 then
              let d1 := siftUpFuel cmp h.capacity index d0 index
              (OK, some { h with size := newSize, data := some d1 }, outv)
            else if c > 0 then
              let d1 := siftDownFuel cmp h.capacity newSize (newSize - index) d0 index
              (OK, some { h with size := newSize, data := some d1 }, outv)
            else
              (OK, some { h with size := newSize, data := some d0 }, outv)

/-- The scan loop of `_min_heap_find` (lines 196-199):
`for (i = 0; i < size; ++i) if (compare(item, data[i]) == 0) return i`.
The counter strictly increases toward `size`, so `fuel := size - i`
bounds the iteration count; when `fuel = 0` the invariant gives
`i ≥ size`, where the C loop exits with `-1` as well. -/
def findLoop {α : Type} (cmp : α → α → Int) (it : α) (d : Nat → α) (size : Nat) :
    Nat → Nat → Int
  | 0, _ => -1
  | fuel + 1, i =>
    if i < size then
      if cmp it (d i) = 0 then (i : Int)
      else findLoop cmp it d size fuel (i + 1)
    else -1

/-- `_min_heap_find` (lines 192-202). -/
def _min_heap_find {α : Type} (heap : Option (MinHeapInterface α)) (item : Option α) : Int :=
  match heap with
  | none => -1
  | some h =>
    match item, h.compare with
    | some it, some cmp =>
      if h.size = 0 then -1
      else
        match h.data with
        | none => -1
        | some d => findLoop cmp it d h.size h.size 0
    | _, _ => -1

/-! ### Pointwise behaviour of the swap -/

theorem setSlot_apply {α : Type} (d : Nat → α) (i : Nat) (v : α) (j : Nat) :
    setSlot d i v j = if j = i then v else d j := rfl

/-- Pointwise description of `_min_heap_swap` when neither operand slot is
the scratch slot (in the library both operands are always element slots
strictly below `capacity`): slots `a` and `b` exchange their contents and
the scratch slot at index `capacity` receives a copy of the old `d a`. -/
theorem _min_heap_swap_apply {α : Type} (capacity : Nat) (d : Nat → α) (a b x : Nat)
    (ha : a ≠ capacity) (hb : b ≠ capacity) :
    _min_heap_swap capacity d a b x =
      if x = b then d a else if x = a then d b else if x = capacity then d a else d x := by
  unfold _min_heap_swap
  simp only [setSlot]
  have ha' : capacity ≠ a := fun h => ha h.symm
  have hb' : capacity ≠ b := fun h => hb h.symm
  by_cases hxb : x = b <;> by_cases hxa : x = a <;> by_cases hxc : x = capacity <;>
    simp_all

/-! ### Comparator semantics

The spec (§3) assumes the user callback is consistent with a total
order: negative means less-than, zero means equivalent, positive means
greater-than.  `cmpConsistent` captures a comparator that realises a
linear order on the element type; the repository's own test comparator
`min_heap_compare_int` (test-min-heap-api.c lines 35-41) is the running
concrete instance. -/

def cmpConsistent {α : Type} [LinearOrder α] (cmp : α → α → Int) : Prop :=
  ∀ a b : α, (cmp a b < 0 ↔ a < b) ∧ (cmp a b = 0 ↔ a = b)

theorem cmpConsistent.lt_iff {α : Type} [LinearOrder α] {cmp : α → α → Int}
    (hc : cmpConsistent cmp) (a b : α) : cmp a b < 0 ↔ a < b := (hc a b).1

theorem cmpConsistent.pos_iff {α : Type} [LinearOrder α] {cmp : α → α → Int}
    (hc : cmpConsistent cmp) (a b : α) : 0 < cmp a b ↔ b < a := by
  rcases hc a b with ⟨h1, h2⟩
  constructor
  · intro h
    rcases lt_trichotomy a b with hab | hab | hab
    · exact absurd (h1.mpr hab) (by omega)
    · exact absurd (h2.mpr hab) (by omega)
    · exact hab
  · intro h
    have hne : ¬ cmp a b < 0 := fun hlt => absurd (h1.mp hlt) (asymm h)
    have hz : ¬ cmp a b = 0 := fun hz => absurd (h2.mp hz) (ne_of_gt h)
    omega

theorem cmpConsistent.nonneg_iff {α : Type} [LinearOrder α] {cmp : α → α → Int}
    (hc : cmpConsistent cmp) (a b : α) : 0 ≤ cmp a b ↔ b ≤ a := by
  rw [← not_lt, ← not_lt, not_iff_not]
  exact hc.lt_iff a b

theorem cmpConsistent.eq_iff {α : Type} [LinearOrder α] {cmp : α → α → Int}
    (hc : cmpConsistent cmp) (a b : α) : cmp a b = 0 ↔ a = b := (hc a b).2

/-- `min_heap_compare_int` from the repository's test suite
(test-min-heap-api.c lines 35-41): `-1` when `a < b`, `0` when equal,
`1` otherwise. -/
def min_heap_compare_int (a b : Int) : Int :=
  if a < b then -1 else if a = b then 0 else 1

theorem min_heap_compare_int_consistent : cmpConsistent min_heap_compare_int := by
  intro a b
  unfold min_heap_compare_int
  constructor <;> constructor <;> intro h <;> split_ifs at * <;> omega

/-! ### The heap-order invariant -/

/-- The heap-order property as the spec states it (§3, §8): for every
non-root occupied index `j`, `compare(buffer[j], buffer[parent j]) ≥ 0`
with `parent j = (j-1)/2`. -/
def heapOrderedCmp {α : Type} (cmp : α → α → Int) (n : Nat) (d : Nat → α) : Prop :=
  ∀ j, j < n → 0 < j → 0 ≤ cmp (d j) (d ((j - 1) / 2))

/-- The heap-order property phrased through the element order: every
parent is `≤` its children. -/
def heapOrderedLe {α : Type} [LinearOrder α] (n : Nat) (d : Nat → α) : Prop :=
  ∀ j, j < n → 0 < j → d ((j - 1) / 2) ≤ d j

theorem heapOrderedCmp_iff_le {α : Type} [LinearOrder α] {cmp : α → α → Int}
    (hc : cmpConsistent cmp) (n : Nat) (d : Nat → α) :
    heapOrderedCmp cmp n d ↔ heapOrderedLe n d := by
  unfold heapOrderedCmp heapOrderedLe
  constructor <;> intro h j hj hj0
  · exact (hc.nonneg_iff _ _).mp (h j hj hj0)
  · exact (hc.nonneg_iff _ _).mpr (h j hj hj0)

instance heapOrderedCmpDecidable {α : Type} (cmp : α → α → Int) (n : Nat)
    (d : Nat → α) : Decidable (heapOrderedCmp cmp n d) := by
  unfold heapOrderedCmp
  infer_instance

/-- In a heap-ordered buffer the root is a minimum of the occupied
slots. -/
theorem heapOrderedLe.root_min {α : Type} [LinearOrder α] {n : Nat} {d : Nat → α}
    (h : heapOrderedLe n d) : ∀ i, i < n → d 0 ≤ d i := by
  intro i
  induction i using Nat.strong_induction_on with
  | _ i ih =>
    intro hi
    rcases Nat.eq_zero_or_pos i with h0 | h0
    · subst h0; exact le_refl _
    · have hp : (i - 1) / 2 < i := by omega
      exact le_trans (ih _ hp (lt_trans hp hi)) (h i hi h0)

/-! ### Correctness of the sift-up loop -/

/-- Loop invariant of the sift-up loop with pivot `i`: heap order holds
at every non-root occupied slot other than `i`, and (bridging) the
parent of `i` is already `≤` every child of `i`. -/
def upInv {α : Type} [LinearOrder α] (n : Nat) (d : Nat → α) (i : Nat) : Prop :=
  (∀ j, j < n → 0 < j → j ≠ i → d ((j - 1) / 2) ≤ d j) ∧
  (0 < i → ∀ c, c < n → (c - 1) / 2 = i → d ((i - 1) / 2) ≤ d c)

theorem siftUpFuel_heapOrdered {α : Type} [LinearOrder α] {cmp : α → α → Int}
    (hc : cmpConsistent cmp) {cap n : Nat} (hn : n ≤ cap) :
    ∀ (fuel : Nat) (d : Nat → α) (i : Nat), i ≤ fuel → i < n → upInv n d i →
      heapOrderedLe n (siftUpFuel cmp cap fuel d i) := by
  intro fuel
  induction fuel with
  | zero =>
    intro d i hif hin hinv
    have hi0 : i = 0 := by omega
    subst hi0
    intro j hj hj0
    exact hinv.1 j hj hj0 (by omega)
  | succ fuel ih =>
    intro d i hif hin hinv
    rw [siftUpFuel]
    by_cases hcond : i ≠ 0 ∧ cmp (d i) (d ((i - 1) / 2)) < 0
    · rw [if_pos hcond]
      obtain ⟨hi0, hlt⟩ := hcond
      have hi0' : 0 < i := Nat.pos_of_ne_zero hi0
      have hltd : d i < d ((i - 1) / 2) := (hc.lt_iff _ _).mp hlt
      set p := (i - 1) / 2 with hp
      have hpi : p < i := by omega
      have hd' : ∀ x, x < n →
          _min_heap_swap cap d i p x = if x = p then d i else if x = i then d p else d x := by
        intro x hx
        rw [_min_heap_swap_apply cap d i p x (by omega) (by omega)]
        by_cases h1 : x = p
        · simp [h1, show p ≠ i by omega]
        · by_cases h2 : x = i <;> simp [h1, h2, show x ≠ cap by omega]
      refine ih _ p (by omega) (by omega) ⟨?_, ?_⟩
      · -- part 1 of the invariant at the new pivot p
        intro j hj hj0 hjp
        have hparn : (j - 1) / 2 < n := by omega
        rw [hd' j hj, hd' _ hparn]
        by_cases hji : j = i
        · have hpar : (j - 1) / 2 = p := by omega
          simp only [hji, hpar, if_pos rfl, if_neg (show i ≠ p by omega),
            if_pos rfl]
          exact le_of_lt hltd
        · by_cases hpari : (j - 1) / 2 = i
          · have h2 : d p ≤ d j := by
              have := hinv.2 hi0' j hj hpari
              rwa [← hp] at this
            simp only [if_neg hjp, if_neg hji, hpari,
              if_neg (show i ≠ p by omega), if_pos rfl]
            exact h2
          · by_cases hparp : (j - 1) / 2 = p
            · have h2 : d p ≤ d j := by
                have := hinv.1 j hj hj0 hji
                rwa [hparp] at this
              simp only [if_neg hjp, if_neg hji, hparp, if_pos rfl]
              exact le_trans (le_of_lt hltd) h2
            · simp only [if_neg hjp, if_neg hji, if_neg hparp, if_neg hpari]
              exact hinv.1 j hj hj0 hji
      · -- part 2 of the invariant at the new pivot p
        intro hp0 c hcn hcp
        have hg : (p - 1) / 2 < n := by omega
        have hc0 : 0 < c := by omega
        have hcgp : p < c := by omega
        have hgp : d ((p - 1) / 2) ≤ d p := hinv.1 p (by omega) hp0 (by omega)
        rw [hd' _ hg, hd' c hcn]
        simp only [if_neg (show (p - 1) / 2 ≠ p by omega),
          if_neg (show (p - 1) / 2 ≠ i by omega)]
        by_cases hci : c = i
        · simp only [hci, if_neg (show i ≠ p by omega), if_pos rfl]
          exact hgp
        · simp only [if_neg (show c ≠ p by omega), if_neg hci]
          have h2 : d p ≤ d c := by
            have := hinv.1 c hcn hc0 hci
            rwa [hcp] at this
          exact le_trans hgp h2
    · rw [if_neg hcond]
      intro j hj hj0
      by_cases hji : j = i
      · subst hji
        have : ¬ cmp (d j) (d ((j - 1) / 2)) < 0 := by
          intro h; exact hcond ⟨by omega, h⟩
        have := (hc.lt_iff (d j) (d ((j - 1) / 2))).not.mp this
        exact le_of_not_lt this
      · exact hinv.1 j hj hj0 hji

/-! ### Correctness of the down-heapify loop -/

/-- Loop invariant of the down-heapify loop with pivot `i`: heap order
holds at every occupied slot whose parent is not `i`, and (bridging)
the parent of `i` is already `≤` every child of `i`. -/
def downInv {α : Type} [LinearOrder α] (n : Nat) (d : Nat → α) (i : Nat) : Prop :=
  (∀ j, j < n → 0 < j → (j - 1) / 2 ≠ i → d ((j - 1) / 2) ≤ d j) ∧
  (0 < i → ∀ c, c < n → (c - 1) / 2 = i → d ((i - 1) / 2) ≤ d c)

theorem siftDownFuel_heapOrdered {α : Type} [LinearOrder α] {cmp : α → α → Int}
    (hc : cmpConsistent cmp) {cap n : Nat} (hn : n ≤ cap) :
    ∀ (fuel : Nat) (d : Nat → α) (i : Nat), n - i ≤ fuel → downInv n d i →
      heapOrderedLe n (siftDownFuel cmp cap n fuel d i) := by
  intro fuel
  induction fuel with
  | zero =>
    intro d i hif hinv j hj hj0
    exact hinv.1 j hj hj0 (by omega)
  | succ fuel ih =>
    intro d i hif hinv
    rw [siftDownFuel]
    set l := 2 * i + 1 with hl
    set r := 2 * i + 2 with hr
    set child := if r ≥ n then l else if cmp (d l) (d r) < 0 then l else r with hch
    have hchlr : child = l ∨ child = r := by
      rw [hch]; split_ifs <;> simp
    have hchb : 2 * i + 1 ≤ child ∧ child ≤ 2 * i + 2 := by
      rcases hchlr with h | h <;> omega
    by_cases hA : r < n ∧ cmp (d child) (d i) < 0
    · rw [if_pos hA]
      obtain ⟨hrn, hlt⟩ := hA
      have hchn : child < n := by omega
      have hin : i < n := by omega
      have hchmin : d child ≤ d l ∧ d child ≤ d r := by
        rw [hch, if_neg (by omega)]
        by_cases hlr : cmp (d l) (d r) < 0
        · rw [if_pos hlr]
          exact ⟨le_refl _, le_of_lt ((hc.lt_iff _ _).mp hlr)⟩
        · rw [if_neg hlr]
          exact ⟨le_of_not_lt fun h => hlr ((hc.lt_iff _ _).mpr h), le_refl _⟩
      have hltd : d child < d i := (hc.lt_iff _ _).mp hlt
      have hd' : ∀ x, x < n → _min_heap_swap cap d i child x =
          if x = child then d i else if x = i then d child else d x := by
        intro x hx
        rw [_min_heap_swap_apply cap d i child x (by omega) (by omega)]
        by_cases h1 : x = child
        · simp [h1, show child ≠ i by omega]
        · by_cases h2 : x = i <;> simp [h1, h2, show x ≠ cap by omega]
      refine ih _ child (by omega) ⟨?_, ?_⟩
      · intro j hj hj0 hjpar
        have hparn : (j - 1) / 2 < n := by omega
        by_cases hji : j = i
        · have e1 : _min_heap_swap cap d i child j = d child := by
            rw [hd' j hj, if_neg (by omega), if_pos hji]
          have e2 : _min_heap_swap cap d i child ((j - 1) / 2) = d ((j - 1) / 2) := by
            rw [hd' _ hparn, if_neg (by omega), if_neg (by omega)]
          rw [e1, e2, hji]
          exact hinv.2 (by omega) child hchn (by omega)
        · by_cases hjc : j = child
          · have e1 : _min_heap_swap cap d i child j = d i := by
              rw [hd' j hj, if_pos hjc]
            have e2 : _min_heap_swap cap d i child ((j - 1) / 2) = d child := by
              rw [hd' _ hparn, if_neg (by omega), if_pos (by omega)]
            rw [e1, e2]
            exact le_of_lt hltd
          · by_cases hpari : (j - 1) / 2 = i
            · have e1 : _min_heap_swap cap d i child j = d j := by
                rw [hd' j hj, if_neg hjc, if_neg hji]
              have e2 : _min_heap_swap cap d i child ((j - 1) / 2) = d child := by
                rw [hd' _ hparn, if_neg (by omega), if_pos hpari]
              rw [e1, e2]
              have hjlr : j = l ∨ j = r := by omega
              rcases hjlr with hjl | hjr
              · rw [hjl]; exact hchmin.1
              · rw [hjr]; exact hchmin.2
            · have e1 : _min_heap_swap cap d i child j = d j := by
                rw [hd' j hj, if_neg hjc, if_neg hji]
              have e2 : _min_heap_swap cap d i child ((j - 1) / 2) = d ((j - 1) / 2) := by
                rw [hd' _ hparn, if_neg hjpar, if_neg hpari]
              rw [e1, e2]
              exact hinv.1 j hj hj0 hpari
      · intro _ c hcn hcpar
        have hparch : (child - 1) / 2 = i := by omega
        have hparn : (child - 1) / 2 < n := by omega
        have e1 : _min_heap_swap cap d i child ((child - 1) / 2) = d child := by
          rw [hd' _ hparn, if_neg (by omega), if_pos hparch]
        have e2 : _min_heap_swap cap d i child c = d c := by
          rw [hd' c hcn, if_neg (by omega), if_neg (by omega)]
        rw [e1, e2]
        have := hinv.1 c hcn (by omega) (by omega)
        rwa [hcpar] at this
    · rw [if_neg hA]
      by_cases hB : l < n ∧ cmp (d l) (d i) < 0
      · rw [if_pos hB]
        obtain ⟨hln, hllt⟩ := hB
        have hin : i < n := by omega
        have hlti : d l < d i := (hc.lt_iff _ _).mp hllt
        -- with a consistent comparator the final swap can only fire when
        -- there is no right child, in which case `child` is the left child
        have hrn : ¬ r < n := by
          intro hrn
          have hge : d i ≤ d child := by
            have : ¬ cmp (d child) (d i) < 0 := fun h => hA ⟨hrn, h⟩
            exact le_of_not_lt fun h => this ((hc.lt_iff _ _).mpr h)
          rcases hchlr with hcl | hcr
          · rw [hcl] at hge; exact absurd hge (not_le.mpr hlti)
          · have : ¬ cmp (d l) (d r) < 0 := by
              intro h
              rw [hch, if_neg (by omega), if_pos h] at hcr
              omega
            have hrl : d r ≤ d l := le_of_not_lt fun h => this ((hc.lt_iff _ _).mpr h)
            rw [hcr] at hge
            exact absurd (lt_of_lt_of_le hlti (le_trans hge hrl)) (lt_irrefl _)
        have hchl : child = l := by rw [hch, if_pos (by omega)]
        rw [hchl]
        have hd' : ∀ x, x < n → _min_heap_swap cap d i l x =
            if x = l then d i else if x = i then d l else d x := by
          intro x hx
          rw [_min_heap_swap_apply cap d i l x (by omega) (by omega)]
          by_cases h1 : x = l
          · simp [h1, show l ≠ i by omega]
          · by_cases h2 : x = i <;> simp [h1, h2, show x ≠ cap by omega]
        intro j hj hj0
        have hparn : (j - 1) / 2 < n := by omega
        by_cases hjl : j = l
        · have e1 : _min_heap_swap cap d i l j = d i := by
            rw [hd' j hj, if_pos hjl]
          have e2 : _min_heap_swap cap d i l ((j - 1) / 2) = d l := by
            rw [hd' _ hparn, if_neg (by omega), if_pos (by omega)]
          rw [e1, e2]
          exact le_of_lt hlti
        · by_cases hji : j = i
          · have e1 : _min_heap_swap cap d i l j = d l := by
              rw [hd' j hj, if_neg hjl, if_pos hji]
            have e2 : _min_heap_swap cap d i l ((j - 1) / 2) = d ((j - 1) / 2) := by
              rw [hd' _ hparn, if_neg (by omega), if_neg (by omega)]
            rw [e1, e2, hji]
            exact hinv.2 (by omega) l hln (by omega)
          · have hpari : (j - 1) / 2 ≠ i := by omega
            have e1 : _min_heap_swap cap d i l j = d j := by
              rw [hd' j hj, if_neg hjl, if_neg hji]
            have e2 : _min_heap_swap cap d i l ((j - 1) / 2) = d ((j - 1) / 2) := by
              rw [hd' _ hparn, if_neg (by omega), if_neg hpari]
            rw [e1, e2]
            exact hinv.1 j hj hj0 hpari
      · rw [if_neg hB]
        intro j hj hj0
        by_cases hpari : (j - 1) / 2 = i
        · have hjlr : j = l ∨ j = r := by omega
          rw [hpari]
          rcases hjlr with hjl | hjr
          · have h1 : ¬ cmp (d l) (d i) < 0 := fun h => hB ⟨by omega, h⟩
            have h2 : d i ≤ d l := le_of_not_lt fun h => h1 ((hc.lt_iff _ _).mpr h)
            rw [hjl]
            exact h2
          · have hrn : r < n := by omega
            have hchmin : d child ≤ d r := by
              rw [hch, if_neg (by omega)]
              by_cases hlr : cmp (d l) (d r) < 0
              · rw [if_pos hlr]
                exact le_of_lt ((hc.lt_iff _ _).mp hlr)
              · rw [if_neg hlr]
            have hge : d i ≤ d child := by
              have : ¬ cmp (d child) (d i) < 0 := fun h => hA ⟨hrn, h⟩
              exact le_of_not_lt fun h => this ((hc.lt_iff _ _).mpr h)
            rw [hjr]
            exact le_trans hge hchmin
        · exact hinv.1 j hj hj0 hpari

/-! ### Characterisation of the public operations on live heaps -/

theorem insert_full {α : Type} (h : MinHeapInterface α) (it : α)
    (cmp : α → α → Int) (d : Nat → α)
    (hcm : h.compare = some cmp) (hd : h.data = some d)
    (hsz : h.size = h.capacity) :
    _min_heap_insert (some h) (some it) = (FULL, some h) := by
  simp only [_min_heap_insert, hcm, hd, if_pos hsz]

theorem insert_ok {α : Type} [LinearOrder α] {cmp : α → α → Int}
    (hc : cmpConsistent cmp) (h : MinHeapInterface α) (d : Nat → α) (it : α)
    (hcm : h.compare = some cmp) (hd : h.data = some d)
    (hsz : h.size < h.capacity) (hord : heapOrderedLe h.size d) :
    ∃ d1, _min_heap_insert (some h) (some it) =
        (OK, some { h with size := h.size + 1, data := some d1 }) ∧
      heapOrderedLe (h.size + 1) d1 := by
  refine ⟨siftUpFuel cmp h.capacity h.size (setSlot d h.size it) h.size, ?_, ?_⟩
  · simp only [_min_heap_insert, hcm, hd, if_neg (show ¬ h.size = h.capacity by omega)]
  · refine siftUpFuel_heapOrdered hc (show h.size + 1 ≤ h.capacity by omega)
      h.size _ h.size (le_refl _) (by omega) ⟨?_, ?_⟩
    · intro j hj hj0 hjs
      have hjlt : j < h.size := by omega
      have hplt : (j - 1) / 2 < h.size := by omega
      simp only [setSlot, if_neg (show j ≠ h.size by omega),
        if_neg (show (j - 1) / 2 ≠ h.size by omega)]
      exact hord j hjlt hj0
    · intro hs0 c hcn hcp
      omega

theorem remove_empty {α : Type} (h : MinHeapInterface α) (index : Nat) (outP : Bool)
    (cmp : α → α → Int) (hcm : h.compare = some cmp) (hsz : h.size = 0) :
    _min_heap_remove (some h) index outP = (EMPTY, some h, none) := by
  simp only [_min_heap_remove, hcm, if_pos hsz]

theorem remove_oob {α : Type} (h : MinHeapInterface α) (index : Nat) (outP : Bool)
    (cmp : α → α → Int) (hcm : h.compare = some cmp) (hsz : h.size ≠ 0)
    (hix : index ≥ h.size) :
    _min_heap_remove (some h) index outP = (OUT_OF_BOUNDS, some h, none) := by
  simp only [_min_heap_remove, hcm, if_neg hsz, if_pos hix]

theorem remove_ok {α : Type} [LinearOrder α] {cmp : α → α → Int}
    (hc : cmpConsistent cmp) (h : MinHeapInterface α) (d : Nat → α)
    (index : Nat) (outP : Bool)
    (hcm : h.compare = some cmp) (hd : h.data = some d)
    (hs0 : 0 < h.size) (hsc : h.size ≤ h.capacity) (hix : index < h.size)
    (hord : heapOrderedLe h.size d) :
    ∃ d1, _min_heap_remove (some h) index outP =
        (OK, some { h with size := h.size - 1, data := some d1 },
          if outP then some (d index) else none) ∧
      heapOrderedLe (h.size - 1) d1 := by
  set n := h.size with hn
  set cap := h.capacity with hcap
  set ns := n - 1 with hns
  set d0 := if h.size > 1 then _min_heap_swap h.capacity d index (h.size - 1) else d
    with hd0def
  have hd0 : ∀ x, x < cap →
      d0 x = if 1 < n ∧ x = n - 1 then d index
             else if 1 < n ∧ x = index then d (n - 1) else d x := by
    intro x hx
    rw [hd0def]
    by_cases h1 : h.size > 1
    · rw [if_pos h1, _min_heap_swap_apply _ _ _ _ _ (by omega) (by omega)]
      by_cases hx1 : x = n - 1
      · simp [hx1, show 1 < n from h1]
      · by_cases hx2 : x = index
        · simp [hx1, hx2, show 1 < n from h1, show index ≠ h.size - 1 ∨ True from .inr trivial]
        · simp [hx1, hx2, show x ≠ cap by omega]
    · rw [if_neg h1]
      have : ¬ 1 < n := h1
      simp [this]
  have houtv : d0 ns = d index := by
    rw [hd0 ns (by omega)]
    by_cases h1 : 1 < n
    · simp [h1, hns]
    · have hi0 : index = 0 := by omega
      have hns0 : ns = 0 := by omega
      simp [h1, hi0, hns0]
  have hred : _min_heap_remove (some h) index outP =
      (if index = ns then
        (OK, some { h with size := ns, data := some d0 },
          if outP then some (d0 ns) else none)
      else
        let c := cmp (d0 index) (d0 ns)
        if c < 0 then
          (OK, some { h with size := ns, data := some (siftUpFuel cmp cap index d0 index) }, if outP then some (d0 ns) else none)
        else if c > 0 then
          (OK, some { h with size := ns, data := some (siftDownFuel cmp cap ns (ns - index) d0 index) }, if outP then some (d0 ns) else none)
        else
          (OK, some { h with size := ns, data := some d0 }, if outP then some (d0 ns) else none)) := by
    simp only [_min_heap_remove, hcm, hd, if_neg (show ¬ h.size = 0 by omega),
      if_neg (show ¬ index ≥ h.size by omega)]
  by_cases hlast : index = ns
  · refine ⟨d0, ?_, ?_⟩
    · rw [hred, if_pos hlast, houtv]
    · intro j hj hj0
      have hjd : d0 j = d j := by
        rw [hd0 j (by omega)]
        simp [show ¬ (1 < n ∧ j = n - 1) by omega, show ¬ (1 < n ∧ j = index) by omega]
      have hpd : d0 ((j - 1) / 2) = d ((j - 1) / 2) := by
        rw [hd0 _ (by omega)]
        simp [show ¬ (1 < n ∧ (j - 1) / 2 = n - 1) by omega,
          show ¬ (1 < n ∧ (j - 1) / 2 = index) by omega]
      rw [hjd, hpd]
      exact hord j (by omega) hj0
  · have hn2 : 1 < n := by omega
    have hixns : index < ns := by omega
    have hd0i : d0 index = d (n - 1) := by
      rw [hd0 index (by omega)]
      simp [hn2, show index ≠ n - 1 by omega]
    have hd0x : ∀ x, x < ns → x ≠ index → d0 x = d x := by
      intro x hx hxi
      rw [hd0 x (by omega)]
      simp [show ¬ (1 < n ∧ x = n - 1) by omega, show ¬ (1 < n ∧ x = index) by omega]
    set c := cmp (d0 index) (d0 ns) with hcdef
    have hcval : c = cmp (d (n - 1)) (d index) := by rw [hcdef, hd0i, houtv]
    by_cases hclt : c < 0
    · -- the moved-in element is smaller than the removed one: sift up
      have hAB : d (n - 1) < d index := by
        rw [hcval] at hclt; exact (hc.lt_iff _ _).mp hclt
      refine ⟨siftUpFuel cmp cap index d0 index, ?_, ?_⟩
      · rw [hred, if_neg hlast]
        simp only []
        rw [if_pos hclt, houtv]
      · refine siftUpFuel_heapOrdered hc (show ns ≤ cap by omega) index d0 index
          (le_refl _) hixns ⟨?_, ?_⟩
        · intro j hj hj0 hji
          have hjd : d0 j = d j := hd0x j hj hji
          rw [hjd]
          by_cases hpj : (j - 1) / 2 = index
          · rw [hpj, hd0i]
            have : d index ≤ d j := by
              have := hord j (by omega) hj0
              rwa [hpj] at this
            exact le_trans (le_of_lt hAB) this
          · rw [hd0x _ (by omega) hpj]
            exact hord j (by omega) hj0
        · intro hix0 c' hcn hcp
          have h1 : d0 ((index - 1) / 2) = d ((index - 1) / 2) := by
            refine hd0x _ (by omega) (by omega)
          have h2 : d0 c' = d c' := by
            refine hd0x _ (by omega) (by omega)
          rw [h1, h2]
          have ha := hord index (by omega) hix0
          have hb := hord c' (by omega) (by omega)
          rw [hcp] at hb
          exact le_trans ha hb
    · by_cases hcgt : c > 0
      · -- the moved-in element is larger than the removed one: sift down
        have hBA : d index < d (n - 1) := by
          rw [hcval] at hcgt; exact (hc.pos_iff _ _).mp hcgt
        refine ⟨siftDownFuel cmp cap ns (ns - index) d0 index, ?_, ?_⟩
        · rw [hred, if_neg hlast]
          simp only []
          rw [if_neg hclt, if_pos hcgt, houtv]
        · refine siftDownFuel_heapOrdered hc (show ns ≤ cap by omega)
            (ns - index) d0 index (le_refl _) ⟨?_, ?_⟩
          · intro j hj hj0 hpj
            by_cases hji : j = index
            · rw [hji, hd0i, hd0x _ (by omega) (by omega)]
              have := hord index (by omega) (by omega)
              exact le_trans this (le_of_lt hBA)
            · rw [hd0x j hj hji, hd0x _ (by omega) hpj]
              exact hord j (by omega) hj0
          · intro hix0 c' hcn hcp
            rw [hd0x _ (by omega) (by omega), hd0x _ (by omega) (by omega)]
            have ha := hord index (by omega) hix0
            have hb := hord c' (by omega) (by omega)
            rw [hcp] at hb
            exact le_trans ha hb
      · -- equal: no re-heapify needed
        have hAB : d (n - 1) = d index := by
          have hc0 : c = 0 := by omega
          rw [hcval] at hc0; exact (hc.eq_iff _ _).mp hc0
        refine ⟨d0, ?_, ?_⟩
        · rw [hred, if_neg hlast]
          simp only []
          rw [if_neg hclt, if_neg hcgt, houtv]
        · have hall : ∀ x, x < ns → d0 x = d x := by
            intro x hx
            by_cases hxi : x = index
            · rw [hxi, hd0i, hAB]
            · exact hd0x x hx hxi
          intro j hj hj0
          rw [hall j hj, hall _ (by omega)]
          exact hord j (by omega) hj0

/-! ### Sequences of public calls -/

/-- One public mutating call: `insert(item)` or `remove(index, out)`
(`outP` records whether the `out` pointer was non-null). -/
inductive HeapOp (α : Type)
  | ins (item : α)
  | rem (index : Nat) (outP : Bool)

/-- Execute one call the way the C API threads the heap pointer: the
call never reseats the pointer, and on error the pointee is returned
unchanged. -/
def runOp {α : Type} (h : MinHeapInterface α) :
    HeapOp α → MinHeapReturnCode × MinHeapInterface α
  | .ins it =>
    let r := _min_heap_insert (some h) (some it)
    (r.1, r.2.getD h)
  | .rem i outP =>
    let r := _min_heap_remove (some h) i outP
    (r.1, r.2.1.getD h)

/-- The heap after a sequence of calls. -/
def runOps {α : Type} (h : MinHeapInterface α) : List (HeapOp α) → MinHeapInterface α
  | [] => h
  | op :: rest => runOps (runOp h op).2 rest

/-- How many of the calls returned `OK`, counted separately for inserts
(first component) and removes (second component). -/
def runCounts {α : Type} (h : MinHeapInterface α) : List (HeapOp α) → Nat × Nat
  | [] => (0, 0)
  | op :: rest =>
    let r := runOp h op
    let k := runCounts r.2 rest
    match op, r.1 with
    | .ins _, OK => (k.1 + 1, k.2)
    | .rem _ _, OK => (k.1, k.2 + 1)
    | _, _ => k

/-- A heap in a reachable good state: comparator bound, size within
capacity, live heap-ordered buffer. -/
def liveOrdered {α : Type} [LinearOrder α] (cmp : α → α → Int)
    (h : MinHeapInterface α) : Prop :=
  h.compare = some cmp ∧ h.size ≤ h.capacity ∧
    ∃ d, h.data = some d ∧ heapOrderedLe h.size d

theorem freshHeap_liveOrdered {α : Type} [LinearOrder α] (cmp : α → α → Int)
    (ds cap : Nat) (z : α) : liveOrdered cmp (freshHeap α ds cap cmp z) := by
  refine ⟨rfl, by simp [freshHeap], fun _ => z, rfl, ?_⟩
  intro j hj hj0
  simp [freshHeap] at hj

theorem runOp_ins {α : Type} [LinearOrder α] {cmp : α → α → Int}
    (hc : cmpConsistent cmp) (h : MinHeapInterface α) (it : α)
    (hl : liveOrdered cmp h) :
    liveOrdered cmp (runOp h (.ins it)).2 ∧
    (runOp h (.ins it)).2.capacity = h.capacity ∧
    ((runOp h (.ins it)).1 = OK ∧ (runOp h (.ins it)).2.size = h.size + 1 ∧
        h.size < h.capacity ∨
      (runOp h (.ins it)).1 = FULL ∧ (runOp h (.ins it)).2 = h ∧
        h.size = h.capacity) := by
  obtain ⟨hcm, hsc, d, hd, hord⟩ := hl
  by_cases hfull : h.size = h.capacity
  · have he := insert_full h it cmp d hcm hd hfull
    have hr : runOp h (.ins it) = (FULL, h) := by
      simp only [runOp, he, Option.getD_some]
    rw [hr]
    exact ⟨⟨hcm, hsc, d, hd, hord⟩, rfl, .inr ⟨rfl, rfl, hfull⟩⟩
  · obtain ⟨d1, he, hord1⟩ := insert_ok hc h d it hcm hd (by omega) hord
    have hr : runOp h (.ins it) =
        (OK, { h with size := h.size + 1, data := some d1 }) := by
      simp only [runOp, he, Option.getD_some]
    rw [hr]
    exact ⟨⟨hcm, by simp; omega, d1, rfl, hord1⟩, rfl, .inl ⟨rfl, rfl, by omega⟩⟩

theorem runOp_rem {α : Type} [LinearOrder α] {cmp : α → α → Int}
    (hc : cmpConsistent cmp) (h : MinHeapInterface α) (i : Nat) (outP : Bool)
    (hl : liveOrdered cmp h) :
    liveOrdered cmp (runOp h (.rem i outP)).2 ∧
    (runOp h (.rem i outP)).2.capacity = h.capacity ∧
    ((runOp h (.rem i outP)).1 = OK ∧ (runOp h (.rem i outP)).2.size = h.size - 1 ∧
        0 < h.size ∨
      (runOp h (.rem i outP)).1 ≠ OK ∧ (runOp h (.rem i outP)).2 = h) := by
  obtain ⟨hcm, hsc, d, hd, hord⟩ := hl
  by_cases hz : h.size = 0
  · have he := remove_empty h i outP cmp hcm hz
    have hr : runOp h (.rem i outP) = (EMPTY, h) := by
      simp only [runOp, he, Option.getD_some]
    rw [hr]
    exact ⟨⟨hcm, hsc, d, hd, hord⟩, rfl, .inr ⟨by simp, rfl⟩⟩
  · by_cases hix : i ≥ h.size
    · have he := remove_oob h i outP cmp hcm hz hix
      have hr : runOp h (.rem i outP) = (OUT_OF_BOUNDS, h) := by
        simp only [runOp, he, Option.getD_some]
      rw [hr]
      exact ⟨⟨hcm, hsc, d, hd, hord⟩, rfl, .inr ⟨by simp, rfl⟩⟩
    · obtain ⟨d1, he, hord1⟩ := remove_ok hc h d i outP hcm hd (by omega) hsc
        (by omega) hord
      have hr : runOp h (.rem i outP) =
          (OK, { h with size := h.size - 1, data := some d1 }) := by
        simp only [runOp, he, Option.getD_some]
      rw [hr]
      exact ⟨⟨hcm, by simp; omega, d1, rfl, hord1⟩, rfl, .inl ⟨rfl, rfl, by omega⟩⟩

theorem runOps_liveOrdered {α : Type} [LinearOrder α] {cmp : α → α → Int}
    (hc : cmpConsistent cmp) :
    ∀ (ops : List (HeapOp α)) (h : MinHeapInterface α), liveOrdered cmp h →
      liveOrdered cmp (runOps h ops) ∧ (runOps h ops).capacity = h.capacity := by
  intro ops
  induction ops with
  | nil => exact fun h hl => ⟨hl, rfl⟩
  | cons op rest ih =>
    intro h hl
    rw [runOps]
    rcases op with it | ⟨i, outP⟩
    · obtain ⟨hl1, hcap1, _⟩ := runOp_ins hc h it hl
      obtain ⟨ha, hb⟩ := ih _ hl1
      exact ⟨ha, hb.trans hcap1⟩
    · obtain ⟨hl1, hcap1, _⟩ := runOp_rem hc h i outP hl
      obtain ⟨ha, hb⟩ := ih _ hl1
      exact ⟨ha, hb.trans hcap1⟩

/-- Additive size bookkeeping along any run from a good state. -/
theorem runOps_size_count {α : Type} [LinearOrder α] {cmp : α → α → Int}
    (hc : cmpConsistent cmp) :
    ∀ (ops : List (HeapOp α)) (h : MinHeapInterface α), liveOrdered cmp h →
      (runOps h ops).size + (runCounts h ops).2 = h.size + (runCounts h ops).1 := by
  intro ops
  induction ops with
  | nil => intro h _; rfl
  | cons op rest ih =>
    intro h hl
    rcases op with it | ⟨i, outP⟩
    · obtain ⟨hl1, _, hcase⟩ := runOp_ins hc h it hl
      have hih := ih _ hl1
      rcases hcase with ⟨hok, hsz, _⟩ | ⟨hfl, hunch, _⟩
      · simp only [runOps, runCounts, hok]
        omega
      · simp only [runOps, runCounts, hfl, hunch]
        exact ih h (by rwa [hunch] at hl1)
    · obtain ⟨hl1, _, hcase⟩ := runOp_rem hc h i outP hl
      have hih := ih _ hl1
      rcases hcase with ⟨hok, hsz, hpos⟩ | ⟨hne, hunch⟩
      · simp only [runOps, runCounts, hok]
        omega
      · rcases hcode : (runOp h (HeapOp.rem i outP)).1 with _ | _ | _ | _ | _
        · exact absurd hcode hne
        all_goals
          simp only [runOps, runCounts, hcode, hunch]
          exact ih h (by rwa [hunch] at hl1)

/-! ### The remove algorithm as the specification words it (claim C3)

These definitions transcribe the spec's §4.1 description of `remove`
(and claim C3): they are the refinement-side counterpart to be compared
with the code-side `_min_heap_remove`.  The spec describes plain
byte-swaps of two elements with no visible scratch slot, a swap-with-last
performed only when `size > 1` *and* the index is not the last occupied
slot, and a final sift-down swap with the left child. -/

/-- Specification-side exchange of the elements at slots `a` and `b`. -/
def swapSpec {α : Type} (d : Nat → α) (a b : Nat) : Nat → α :=
  fun x => if x = a then d b else if x = b then d a else d x

/-- Specification-side sift-up: the same loop as insert's sift-up. -/
def siftUpSpec {α : Type} (cmp : α → α → Int) : Nat → (Nat → α) → Nat → (Nat → α)
  | 0, d, _ => d
  | fuel + 1, d, cur =>
    if cur ≠ 0 ∧ cmp (d cur) (d ((cur - 1) / 2)) < 0 then
      siftUpSpec cmp fuel (swapSpec d cur ((cur - 1) / 2)) ((cur - 1) / 2)
    else d

/-- Specification-side sift-down: while a right child exists and the
smaller of the two children is less than the current node, swap with
that smaller child and descend; after the loop, if a left child still
exists and is less than the current node, perform one final swap with
that left child. -/
def siftDownSpec {α : Type} (cmp : α → α → Int) (size : Nat) :
    Nat → (Nat → α) → Nat → (Nat → α)
  | 0, d, _ => d
  | fuel + 1, d, index =>
    let l := 2 * index + 1
    let r := 2 * index + 2
    let child := if r ≥ size then l else if cmp (d l) (d r) < 0 then l else r
    if r < size ∧ cmp (d child) (d index) < 0 then
      siftDownSpec cmp size fuel (swapSpec d index child) child
    else if l < size ∧ cmp (d l) (d index) < 0 then
      swapSpec d index l
    else d

/-- The remove steps exactly as claim C3 states them, returning the
resulting buffer, the new size and the copied-out value: byte-swap the
element at `index` with the element at `size-1` only if `size > 1` and
`index` is not the last occupied slot; decrement `size`; optionally copy
the value now at slot `size`; return with no re-heapify if `index` now
equals `size`; otherwise compare the moved-in element at `index` with
the element that occupied the removed slot and sift up (cmp < 0), sift
down (cmp > 0) or do nothing (cmp = 0). -/
def removeSpec {α : Type} (cmp : α → α → Int) (size : Nat) (d : Nat → α)
    (index : Nat) (outP : Bool) : (Nat → α) × Nat × Option α :=
  let d0 := if 1 < size ∧ index ≠ size - 1 then swapSpec d index (size - 1) else d
  let ns := size - 1
  let outv := if outP then some (d0 ns) else none
  if index = ns then (d0, ns, outv)
  else
    let c := cmp (d0 index) (d0 ns)
    if c < 0 then (siftUpSpec cmp index d0 index, ns, outv)
    else if c > 0 then (siftDownSpec cmp ns (ns - index) d0 index, ns, outv)
    else (d0, ns, outv)

theorem siftUpFuel_eq_spec {α : Type} (cmp : α → α → Int) (cap : Nat) :
    ∀ (fuel : Nat) (d1 d2 : Nat → α) (cur : Nat), cur < cap →
      (∀ x, x ≠ cap → d1 x = d2 x) →
      ∀ x, x ≠ cap → siftUpFuel cmp cap fuel d1 cur x = siftUpSpec cmp fuel d2 cur x := by
  intro fuel
  induction fuel with
  | zero => intro d1 d2 cur _ hagree x hx; exact hagree x hx
  | succ fuel ih =>
    intro d1 d2 cur hcur hagree x hx
    rw [siftUpFuel, siftUpSpec]
    have e1 : d1 cur = d2 cur := hagree _ (by omega)
    have e2 : d1 ((cur - 1) / 2) = d2 ((cur - 1) / 2) := hagree _ (by omega)
    by_cases hcond : cur ≠ 0 ∧ cmp (d1 cur) (d1 ((cur - 1) / 2)) < 0
    · obtain ⟨hc0, hlt⟩ := hcond
      rw [if_pos ⟨hc0, hlt⟩, if_pos ⟨hc0, by rw [← e1, ← e2]; exact hlt⟩]
      refine ih _ _ _ (by omega) ?_ x hx
      intro y hy
      rw [_min_heap_swap_apply _ _ _ _ _ (by omega) (by omega)]
      simp only [swapSpec]
      by_cases h1 : y = (cur - 1) / 2
      · simp [h1, show (cur - 1) / 2 ≠ cur by omega, e1]
      · by_cases h2 : y = cur
        · simp [h1, h2, e2, show cur ≠ (cur - 1) / 2 by omega]
        · simp [h1, h2, hy, hagree y hy]
    · rw [if_neg hcond, if_neg (by rw [← e1, ← e2]; exact hcond)]
      exact hagree x hx

theorem siftDownFuel_eq_spec {α : Type} [LinearOrder α] {cmp : α → α → Int}
    (hc : cmpConsistent cmp) {cap size : Nat} (hsc : size ≤ cap) :
    ∀ (fuel : Nat) (d1 d2 : Nat → α) (i : Nat), i < cap →
      (∀ x, x ≠ cap → d1 x = d2 x) →
      ∀ x, x ≠ cap →
        siftDownFuel cmp cap size fuel d1 i x = siftDownSpec cmp size fuel d2 i x := by
  intro fuel
  induction fuel with
  | zero => intro d1 d2 i _ hagree x hx; exact hagree x hx
  | succ fuel ih =>
    intro d1 d2 i hi hagree x hx
    rw [siftDownFuel, siftDownSpec]
    set l := 2 * i + 1 with hl
    set r := 2 * i + 2 with hr
    set ch1 := if r ≥ size then l else if cmp (d1 l) (d1 r) < 0 then l else r with hch1
    set ch2 := if r ≥ size then l else if cmp (d2 l) (d2 r) < 0 then l else r with hch2
    have hch12 : ch1 = ch2 := by
      rw [hch1, hch2]
      by_cases hrs : r ≥ size
      · rw [if_pos hrs, if_pos hrs]
      · rw [if_neg hrs, if_neg hrs, hagree l (by omega), hagree r (by omega)]
    have hchb : 2 * i + 1 ≤ ch1 ∧ ch1 ≤ 2 * i + 2 := by
      rw [hch1]; split_ifs <;> omega
    have ei : d1 i = d2 i := hagree _ (by omega)
    by_cases hrs : r < size
    · have hchs : ch1 < size := by omega
      have el : d1 l = d2 l := hagree _ (by omega)
      have ech : d1 ch1 = d2 ch2 := by rw [← hch12]; exact hagree _ (by omega)
      by_cases hcond : cmp (d1 ch1) (d1 i) < 0
      · have c1pos : r < size ∧ cmp (d1 ch1) (d1 i) < 0 := ⟨hrs, hcond⟩
        have c2pos : r < size ∧ cmp (d2 ch2) (d2 i) < 0 :=
          ⟨hrs, by rw [← ech, ← ei]; exact hcond⟩
        rw [if_pos c1pos, if_pos c2pos, ← hch12]
        refine ih _ _ ch1 (by omega) ?_ x hx
        intro y hy
        rw [_min_heap_swap_apply _ _ _ _ _ (by omega) (by omega)]
        simp only [swapSpec]
        have ech1 : d1 ch1 = d2 ch1 := hagree _ (by omega)
        by_cases h1 : y = ch1
        · simp [h1, show ch1 ≠ i by omega, ei]
        · by_cases h2 : y = i
          · simp [h1, h2, ech1, show i ≠ ch1 by omega]
          · simp [h1, h2, hy, hagree y hy]
      · have c1neg : ¬ (r < size ∧ cmp (d1 ch1) (d1 i) < 0) := fun hx2 => hcond hx2.2
        have c2neg : ¬ (r < size ∧ cmp (d2 ch2) (d2 i) < 0) :=
          fun hx2 => hcond (by rw [ech, ei]; exact hx2.2)
        rw [if_neg c1neg, if_neg c2neg]
        by_cases hfin : cmp (d1 l) (d1 i) < 0
        · -- impossible with a consistent comparator: the smaller child is
          -- not below the node, so neither is the left child
          exfalso
          have h1 : d1 i ≤ d1 ch1 :=
            le_of_not_lt fun hlt => hcond ((hc.lt_iff _ _).mpr hlt)
          have h2 : d1 l < d1 i := (hc.lt_iff _ _).mp hfin
          rcases (show ch1 = l ∨ ch1 = r by rw [hch1]; split_ifs <;> simp) with he | he
          · rw [he] at h1; exact absurd h2 (not_lt.mpr h1)
          · have : ¬ cmp (d1 l) (d1 r) < 0 := by
              intro hlr
              rw [hch1, if_neg (by omega), if_pos hlr] at he
              omega
            have h3 : d1 r ≤ d1 l :=
              le_of_not_lt fun hlt => this ((hc.lt_iff _ _).mpr hlt)
            rw [he] at h1
            exact absurd (lt_of_lt_of_le h2 (le_trans h1 h3)) (lt_irrefl _)
        · have f1neg : ¬ (l < size ∧ cmp (d1 l) (d1 i) < 0) := fun hx2 => hfin hx2.2
          have f2neg : ¬ (l < size ∧ cmp (d2 l) (d2 i) < 0) :=
            fun hx2 => hfin (by rw [el, ei]; exact hx2.2)
          rw [if_neg f1neg, if_neg f2neg]
          exact hagree x hx
    · have c1neg : ¬ (r < size ∧ cmp (d1 ch1) (d1 i) < 0) := fun hx2 => hrs hx2.1
      have c2neg : ¬ (r < size ∧ cmp (d2 ch2) (d2 i) < 0) := fun hx2 => hrs hx2.1
      rw [if_neg c1neg, if_neg c2neg]
      have hch1l : ch1 = l := by rw [hch1, if_pos (by omega)]
      have hch2l : ch2 = l := by rw [hch2, if_pos (by omega)]
      by_cases hls : l < size
      · have el : d1 l = d2 l := hagree _ (by omega)
        by_cases hfin : cmp (d1 l) (d1 i) < 0
        · have f1pos : l < size ∧ cmp (d1 l) (d1 i) < 0 := ⟨hls, hfin⟩
          have f2pos : l < size ∧ cmp (d2 l) (d2 i) < 0 :=
            ⟨hls, by rw [← el, ← ei]; exact hfin⟩
          rw [if_pos f1pos, if_pos f2pos, hch1l]
          rw [_min_heap_swap_apply _ _ _ _ _ (by omega) (by omega)]
          simp only [swapSpec]
          by_cases h1 : x = l
          · simp [h1, show l ≠ i by omega, ei]
          · by_cases h2 : x = i
            · simp [h1, h2, el, show i ≠ l by omega]
            · simp [h1, h2, hx, hagree x hx]
        · have f1neg : ¬ (l < size ∧ cmp (d1 l) (d1 i) < 0) := fun hx2 => hfin hx2.2
          have f2neg : ¬ (l < size ∧ cmp (d2 l) (d2 i) < 0) :=
            fun hx2 => hfin (by rw [el, ei]; exact hx2.2)
          rw [if_neg f1neg, if_neg f2neg]
          exact hagree x hx
      · have f1neg : ¬ (l < size ∧ cmp (d1 l) (d1 i) < 0) := fun hx2 => hls hx2.1
        have f2neg : ¬ (l < size ∧ cmp (d2 l) (d2 i) < 0) := fun hx2 => hls hx2.1
        rw [if_neg f1neg, if_neg f2neg]
        exact hagree x hx

/-- `_min_heap_remove` implements the specification's remove steps: on a
live heap with `0 < size` and a valid index it returns `OK`, the same
copied-out value, the decremented size, and a buffer that agrees with
`removeSpec` on every element slot (`x < capacity`; the slot at index
`capacity` is the code's swap scratch, not an element). -/
theorem remove_eq_removeSpec {α : Type} [LinearOrder α] {cmp : α → α → Int}
    (hc : cmpConsistent cmp) (h : MinHeapInterface α) (d : Nat → α)
    (index : Nat) (outP : Bool)
    (hcm : h.compare = some cmp) (hd : h.data = some d)
    (hs0 : 0 < h.size) (hsc : h.size ≤ h.capacity) (hix : index < h.size) :
    (_min_heap_remove (some h) index outP).1 = OK ∧
    (_min_heap_remove (some h) index outP).2.2 =
      (removeSpec cmp h.size d index outP).2.2 ∧
    ∃ h', (_min_heap_remove (some h) index outP).2.1 = some h' ∧
      h'.size = (removeSpec cmp h.size d index outP).2.1 ∧
      ∃ d', h'.data = some d' ∧
        ∀ x, x < h.capacity → d' x = (removeSpec cmp h.size d index outP).1 x := by
  set n := h.size with hn
  set cap := h.capacity with hcap
  set ns := n - 1 with hns
  set d0c := if h.size > 1 then _min_heap_swap h.capacity d index (h.size - 1) else d
    with hd0c
  set d0s := if 1 < n ∧ index ≠ n - 1 then swapSpec d index (n - 1) else d with hd0s
  have agree0 : ∀ x, x ≠ cap → d0c x = d0s x := by
    intro x hx
    rw [hd0c, hd0s]
    by_cases h1 : 1 < n
    · by_cases h2 : index = n - 1
      · -- the code also swaps when the removed slot is the last occupied
        -- one; that self-swap changes no element slot
        rw [if_pos (show h.size > 1 from h1),
          if_neg (show ¬ (1 < n ∧ index ≠ n - 1) from fun hk => hk.2 h2)]
        rw [_min_heap_swap_apply _ _ _ _ _ (by omega) (by omega)]
        by_cases hx1 : x = n - 1
        · simp [hx1, h2]
        · by_cases hx2 : x = index
          · omega
          · simp [hx1, hx2, show x ≠ h.capacity by omega,
              show x ≠ h.size - 1 by omega]
      · rw [if_pos (show h.size > 1 from h1),
          if_pos (show 1 < n ∧ index ≠ n - 1 from ⟨h1, h2⟩)]
        rw [_min_heap_swap_apply _ _ _ _ _ (by omega) (by omega)]
        simp only [swapSpec]
        by_cases hx1 : x = n - 1
        · simp [hx1, show n - 1 ≠ index by omega, show (n - 1 : Nat) = h.size - 1 by omega]
        · by_cases hx2 : x = index
          · simp [hx1, hx2, show index ≠ h.size - 1 by omega,
              show (n - 1 : Nat) = h.size - 1 by omega]
          · simp [hx1, hx2, show x ≠ h.capacity by omega,
              show x ≠ h.size - 1 by omega]
    · rw [if_neg (show ¬ h.size > 1 from h1),
        if_neg (show ¬ (1 < n ∧ index ≠ n - 1) from fun hk => h1 hk.1)]
  have houts : (if outP then some (d0c ns) else none) =
      (if outP then some (d0s ns) else none) := by
    cases outP
    · rfl
    · rw [agree0 ns (by omega)]
  have hredc : _min_heap_remove (some h) index outP =
      (if index = ns then
        (OK, some { h with size := ns, data := some d0c }, if outP then some (d0c ns) else none)
      else
        if cmp (d0c index) (d0c ns) < 0 then
          (OK, some { h with size := ns, data := some (siftUpFuel cmp cap index d0c index) }, if outP then some (d0c ns) else none)
        else if cmp (d0c index) (d0c ns) > 0 then
          (OK, some { h with size := ns, data := some (siftDownFuel cmp cap ns (ns - index) d0c index) }, if outP then some (d0c ns) else none)
        else
          (OK, some { h with size := ns, data := some d0c }, if outP then some (d0c ns) else none)) := by
    simp only [_min_heap_remove, hcm, hd, if_neg (show ¬ h.size = 0 by omega),
      if_neg (show ¬ index ≥ h.size by omega)]
  have hreds : removeSpec cmp n d index outP =
      (if index = ns then (d0s, ns, if outP then some (d0s ns) else none)
      else
        if cmp (d0s index) (d0s ns) < 0 then (siftUpSpec cmp index d0s index, ns, if outP then some (d0s ns) else none)
        else if cmp (d0s index) (d0s ns) > 0 then (siftDownSpec cmp ns (ns - index) d0s index, ns, if outP then some (d0s ns) else none)
        else (d0s, ns, if outP then some (d0s ns) else none)) := by
    simp only [removeSpec]
  have hcc : cmp (d0c index) (d0c ns) = cmp (d0s index) (d0s ns) := by
    rw [agree0 index (by omega), agree0 ns (by omega)]
  rw [hredc, hreds]
  by_cases hlast : index = ns
  · rw [if_pos hlast, if_pos hlast]
    refine ⟨rfl, houts, _, rfl, rfl, d0c, rfl, fun x hx => agree0 x (by omega)⟩
  · rw [if_neg hlast, if_neg hlast]
    by_cases hclt : cmp (d0c index) (d0c ns) < 0
    · have hclt' : cmp (d0s index) (d0s ns) < 0 := by rw [← hcc]; exact hclt
      rw [if_pos hclt, if_pos hclt']
      refine ⟨rfl, houts, _, rfl, rfl, _, rfl, fun x hx => ?_⟩
      exact siftUpFuel_eq_spec cmp cap index d0c d0s index (by omega) agree0 x (by omega)
    · have hclt' : ¬ cmp (d0s index) (d0s ns) < 0 := by rw [← hcc]; exact hclt
      rw [if_neg hclt, if_neg hclt']
      by_cases hcgt : cmp (d0c index) (d0c ns) > 0
      · have hcgt' : cmp (d0s index) (d0s ns) > 0 := by rw [← hcc]; exact hcgt
        rw [if_pos hcgt, if_pos hcgt']
        refine ⟨rfl, houts, _, rfl, rfl, _, rfl, fun x hx => ?_⟩
        exact siftDownFuel_eq_spec hc (show ns ≤ cap by omega) (ns - index) d0c d0s
          index (by omega) agree0 x (by omega)
      · have hcgt' : ¬ cmp (d0s index) (d0s ns) > 0 := by rw [← hcc]; exact hcgt
        rw [if_neg hcgt, if_neg hcgt']
        refine ⟨rfl, houts, _, rfl, rfl, d0c, rfl, fun x hx => agree0 x (by omega)⟩

/-- The `out` pointer only selects whether the removed value is copied
out (`_min_heap_remove` lines 139-140); the return code and the heap
state are the same either way. -/
theorem remove_out_indep {α : Type} (hp : Option (MinHeapInterface α)) (i : Nat)
    (b1 b2 : Bool) :
    (_min_heap_remove hp i b1).1 = (_min_heap_remove hp i b2).1 ∧
    (_min_heap_remove hp i b1).2.1 = (_min_heap_remove hp i b2).2.1 := by
  cases hp with
  | none => exact ⟨rfl, rfl⟩
  | some h =>
    rcases hcv : h.compare with _ | cmp
    · simp [_min_heap_remove, hcv]
    · rcases hdv : h.data with _ | d
      · simp [_min_heap_remove, hcv, hdv]
      · simp only [_min_heap_remove, hcv, hdv]
        split_ifs <;> exact ⟨rfl, rfl⟩

/-- When `out` is absent, `_min_heap_remove` copies nothing. -/
theorem remove_out_none {α : Type} (hp : Option (MinHeapInterface α)) (i : Nat) :
    (_min_heap_remove hp i false).2.2 = none := by
  cases hp with
  | none => rfl
  | some h =>
    rcases hcv : h.compare with _ | cmp
    · simp [_min_heap_remove, hcv]
    · rcases hdv : h.data with _ | d
      · simp only [_min_heap_remove, hcv, hdv]
        split_ifs <;> rfl
      · simp only [_min_heap_remove, hcv, hdv]
        split_ifs <;> simp_all

/-- The value `removeSpec` copies out is the element that slot `index`
held before the call. -/
theorem removeSpec_out {α : Type} (cmp : α → α → Int) (size : Nat) (d : Nat → α)
    (index : Nat) (outP : Bool) (hs0 : 0 < size) (hix : index < size) :
    (removeSpec cmp size d index outP).2.2 =
      (if outP then some (d index) else none) := by
  simp only [removeSpec]
  by_cases hcnd : 1 < size ∧ index ≠ size - 1
  · rw [if_pos hcnd]
    have hkey : swapSpec d index (size - 1) (size - 1) = d index := by
      simp [swapSpec, show size - 1 ≠ index from fun hk => hcnd.2 hk.symm]
    split_ifs <;> simp [hkey]
  · rw [if_neg hcnd]
    have hik : index = size - 1 := by omega
    split_ifs <;> simp [hik]

theorem findLoop_none {α : Type} (cmp : α → α → Int) (it : α) (d : Nat → α)
    (size : Nat) :
    ∀ (fuel i : Nat), size ≤ i + fuel →
      (∀ j, i ≤ j → j < size → cmp it (d j) ≠ 0) →
      findLoop cmp it d size fuel i = -1 := by
  intro fuel
  induction fuel with
  | zero => intro i _ _; rfl
  | succ fuel ih =>
    intro i hsz hnone
    rw [findLoop]
    by_cases hi : i < size
    · rw [if_pos hi, if_neg (hnone i (le_refl _) hi)]
      exact ih (i + 1) (by omega) (fun j hj hjs => hnone j (by omega) hjs)
    · rw [if_neg hi]

theorem findLoop_found {α : Type} (cmp : α → α → Int) (it : α) (d : Nat → α)
    (size : Nat) :
    ∀ (fuel i k : Nat), i ≤ k → k < size → cmp it (d k) = 0 →
      (∀ j, i ≤ j → j < k → cmp it (d j) ≠ 0) → size ≤ i + fuel →
      findLoop cmp it d size fuel i = (k : Int) := by
  intro fuel
  induction fuel with
  | zero => intro i k hik hks _ _ hsz; omega
  | succ fuel ih =>
    intro i k hik hks hk hmin hsz
    rw [findLoop, if_pos (show i < size by omega)]
    by_cases hii : cmp it (d i) = 0
    · have hike : i = k := by
        by_contra hne
        exact hmin i (le_refl _) (by omega) hii
      rw [if_pos hii, hike]
    · rw [if_neg hii]
      have hik' : i + 1 ≤ k := by
        rcases Nat.eq_or_lt_of_le hik with he | hl
        · exact absurd (he ▸ hk) hii
        · omega
      exact ih (i + 1) k hik' hks hk (fun j hj hjk => hmin j (by omega) hjk) (by omega)

/-! ### Write footprint of a heap operation (claim C1)

Each entry `s` of a write list stands for the `memcpy` of `data_size`
bytes at byte offset `s * data_size` from the start of the buffer that
`_min_heap_init` obtained from the arena.  The lists mirror the
corresponding functions above statement by statement. -/

/-- Slots written by one `_min_heap_swap`: the scratch copy at slot
`capacity` first, then the stores into `a` and `b`. -/
def swapWrites (capacity a b : Nat) : List Nat := [capacity, a, b]

/-- Slots written by the sift-up loop; mirrors `siftUpFuel`. -/
def siftUpWrites {α : Type} (cmp : α → α → Int) (capacity : Nat) :
    Nat → (Nat → α) → Nat → List Nat
  | 0, _, _ => []
  | fuel + 1, d, cur =>
    if cur ≠ 0 ∧ cmp (d cur) (d ((cur - 1) / 2)) < 0 then
      swapWrites capacity cur ((cur - 1) / 2) ++
        siftUpWrites cmp capacity fuel
          (_min_heap_swap capacity d cur ((cur - 1) / 2)) ((cur - 1) / 2)
    else []

/-- Slots written by `_min_heap_insert`: nothing on an error or full
path, otherwise the `memcpy` into slot `size` followed by the sift-up
swaps; mirrors `_min_heap_insert`. -/
def insertWrites {α : Type} (heap : Option (MinHeapInterface α)) (item : Option α) :
    List Nat :=
  match heap with
  | none => []
  | some h =>
    match item, h.compare, h.data with
    | some it, some cmp, some d =>
      if h.size = h.capacity then []
      else h.size :: siftUpWrites cmp h.capacity h.size (setSlot d h.size it) h.size
    | _, _, _ => []

/-! ### Claim theorems -/

/-- C1: the claim asserts that `_min_heap_init` requests `capacity + 1`
slots so that the swap's scratch write at slot index `capacity` stays
inside the requested block.  The code requests only `capacity` slots
(`arena_allocator_api_calloc(arena, data_size, capacity)`), yet
`_min_heap_swap` writes `data_size` bytes at byte offset
`capacity * data_size`.  This theorem evaluates the code at a concrete
failing input: a fresh heap with `data_size = 1`, `capacity = 2`;
inserting `5` succeeds, and the following insert of `3` sifts up and
performs a swap whose write set contains slot `2` — byte offset
`2 * data_size`, which is not below the
`allocRequestSlots capacity * data_size` bytes requested at init. -/
theorem C1_swap_scratch_write_outside_requested_block :
    (_min_heap_insert (some (freshHeap Int 1 2 min_heap_compare_int 0)) (some 5)).1 = OK ∧
    (2 : Nat) ∈ insertWrites
      (_min_heap_insert (some (freshHeap Int 1 2 min_heap_compare_int 0)) (some 5)).2
      (some 3) ∧
    2 * (freshHeap Int 1 2 min_heap_compare_int 0).data_size ≥
      allocRequestSlots (freshHeap Int 1 2 min_heap_compare_int 0).capacity *
        (freshHeap Int 1 2 min_heap_compare_int 0).data_size := by
  decide

/-- C2: starting from a freshly initialized heap, after every sequence
of insert and remove calls the heap-order invariant holds on the
occupied prefix — for every index `i` in `[1, size)`,
`compare(buffer[i], buffer[parent i]) ≥ 0` with `parent i = (i-1)/2` —
and `size` never exceeds the capacity fixed at init.  (In this array
embedding the occupied slots are the prefix `[0, size)` by
representation: operations index the live elements only there.) -/
theorem C2_heap_order_after_every_operation {α : Type} [LinearOrder α]
    (cmp : α → α → Int) (hcmp : cmpConsistent cmp) (ds cap : Nat) (z : α)
    (ops : List (HeapOp α)) :
    (runOps (freshHeap α ds cap cmp z) ops).size ≤ cap ∧
    ∀ dF, (runOps (freshHeap α ds cap cmp z) ops).data = some dF →
      heapOrderedCmp cmp (runOps (freshHeap α ds cap cmp z) ops).size dF := by
  obtain ⟨⟨hcm, hsz, d, hd, hord⟩, hcap⟩ :=
    runOps_liveOrdered hcmp ops _ (freshHeap_liveOrdered cmp ds cap z)
  refine ⟨hsz.trans (le_of_eq hcap), ?_⟩
  intro dF hdF
  rw [hd] at hdF
  injection hdF with hdd
  rw [← hdd, heapOrderedCmp_iff_le hcmp]
  exact hord

/-- Witness for C2: the concrete scenario from the spec's §8 (capacity
10 integers, insert `[10, 5, 3, 8, 1]`, then remove the root). -/
theorem C2_heap_order_after_every_operation_witness :
    cmpConsistent min_heap_compare_int ∧
    ((runOps (freshHeap Int 4 10 min_heap_compare_int 0)
        [.ins 10, .ins 5, .ins 3, .ins 8, .ins 1, .rem 0 true]).size ≤ 10 ∧
      ∀ dF, (runOps (freshHeap Int 4 10 min_heap_compare_int 0)
          [.ins 10, .ins 5, .ins 3, .ins 8, .ins 1, .rem 0 true]).data = some dF →
        heapOrderedCmp min_heap_compare_int
          (runOps (freshHeap Int 4 10 min_heap_compare_int 0)
            [.ins 10, .ins 5, .ins 3, .ins 8, .ins 1, .rem 0 true]).size dF) :=
  ⟨min_heap_compare_int_consistent,
    C2_heap_order_after_every_operation min_heap_compare_int
      min_heap_compare_int_consistent 4 10 0
      [.ins 10, .ins 5, .ins 3, .ins 8, .ins 1, .rem 0 true]⟩

/-- C4: inserting into a heap whose `size` equals its `capacity` fails
with `FULL` and returns the heap unchanged (no field or buffer write);
`top` and `remove` on a heap with `size = 0` fail with `EMPTY`, copy
nothing, and return the heap unchanged.  (`_min_heap_top` performs no
store through the heap pointer at all, which the embedding reflects by
returning only the copied value.) -/
theorem C4_capacity_and_underflow_boundaries {α : Type} :
    (∀ (h : MinHeapInterface α) (it : α) (cmp : α → α → Int) (d : Nat → α),
      h.compare = some cmp → h.data = some d → h.size = h.capacity →
      _min_heap_insert (some h) (some it) = (FULL, some h)) ∧
    (∀ (h : MinHeapInterface α) (d : Nat → α), h.data = some d → h.size = 0 →
      _min_heap_top (some h) true = (EMPTY, none)) ∧
    (∀ (h : MinHeapInterface α) (i : Nat) (b : Bool) (cmp : α → α → Int),
      h.compare = some cmp → h.size = 0 →
      _min_heap_remove (some h) i b = (EMPTY, some h, none)) := by
  refine ⟨fun h it cmp d hcm hd hsz => insert_full h it cmp d hcm hd hsz,
    fun h d hd hsz => ?_,
    fun h i b cmp hcm hsz => remove_empty h i b cmp hcm hsz⟩
  simp [_min_heap_top, hd, hsz]

/-- Witness heap for the boundary claims: one stored element, capacity
one. -/
def heapOneFull : MinHeapInterface Int :=
  { data_size := 4, size := 1, capacity := 1,
    compare := some min_heap_compare_int, data := some (fun _ => 7) }

/-- Witness heap for the boundary claims: empty, capacity one. -/
def heapOneEmpty : MinHeapInterface Int :=
  { data_size := 4, size := 0, capacity := 1,
    compare := some min_heap_compare_int, data := some (fun _ => 0) }

/-- Witness for C4 at the two concrete one-slot heaps. -/
theorem C4_capacity_and_underflow_boundaries_witness :
    (heapOneFull.size = heapOneFull.capacity ∧
      _min_heap_insert (some heapOneFull) (some 9) = (FULL, some heapOneFull)) ∧
    (heapOneEmpty.size = 0 ∧
      _min_heap_top (some heapOneEmpty) true = (EMPTY, none)) ∧
    _min_heap_remove (some heapOneEmpty) 0 true = (EMPTY, some heapOneEmpty, none) :=
  ⟨⟨rfl, C4_capacity_and_underflow_boundaries.1 heapOneFull 9
      min_heap_compare_int (fun _ => 7) rfl rfl rfl⟩,
    ⟨rfl, C4_capacity_and_underflow_boundaries.2.1 heapOneEmpty (fun _ => 0) rfl rfl⟩,
    C4_capacity_and_underflow_boundaries.2.2 heapOneEmpty 0 true
      min_heap_compare_int rfl rfl⟩

/-- C8: the three queries treat a null heap handle defensively —
`size` answers `0` (it never fails), `is_empty` answers `true`, and
`is_full` also answers `true`; for a non-null heap `is_full` is exactly
`size ≥ capacity` and `size` is a pure projection of the `size` field
(no state is produced or consumed besides the heap argument). -/
theorem C8_defensive_null_queries (α : Type) :
    _min_heap_size (none : Option (MinHeapInterface α)) = 0 ∧
    _min_heap_is_empty (none : Option (MinHeapInterface α)) = true ∧
    _min_heap_is_full (none : Option (MinHeapInterface α)) = true ∧
    (∀ h : MinHeapInterface α, _min_heap_is_full (some h) = decide (h.size ≥ h.capacity)) ∧
    (∀ h : MinHeapInterface α, _min_heap_size (some h) = h.size) :=
  ⟨rfl, rfl, rfl, fun _ => rfl, fun _ => rfl⟩

/-- C10: every `NULL_POINTER` check precedes the state checks, so the
null error dominates: `top` with a null `out` on an empty heap answers
`NULL_POINTER` (not `EMPTY`); `insert` of a null item into a full heap
answers `NULL_POINTER` (not `FULL`); `remove` with a null comparator
answers `NULL_POINTER` both on an empty heap (not `EMPTY`) and with
`index ≥ size` (not `OUT_OF_BOUNDS`). -/
theorem C10_null_error_dominates_state_errors {α : Type} :
    (∀ h : MinHeapInterface α, h.size = 0 →
      _min_heap_top (some h) false = (NULL_POINTER, none)) ∧
    (∀ h : MinHeapInterface α, h.size = h.capacity →
      _min_heap_insert (some h) none = (NULL_POINTER, some h)) ∧
    (∀ (h : MinHeapInterface α) (i : Nat) (b : Bool), h.compare = none → h.size = 0 →
      _min_heap_remove (some h) i b = (NULL_POINTER, some h, none)) ∧
    (∀ (h : MinHeapInterface α) (i : Nat) (b : Bool), h.compare = none → i ≥ h.size →
      _min_heap_remove (some h) i b = (NULL_POINTER, some h, none)) := by
  refine ⟨fun h _ => rfl, fun h _ => rfl, fun h i b hcm _ => ?_, fun h i b hcm _ => ?_⟩
  · simp [_min_heap_remove, hcm]
  · simp [_min_heap_remove, hcm]

/-- Witness heap with a null comparator for C10. -/
def heapNoCompare : MinHeapInterface Int :=
  { data_size := 4, size := 0, capacity := 1,
    compare := none, data := some (fun _ => 0) }

/-- Witness for C10 at concrete heaps. -/
theorem C10_null_error_dominates_state_errors_witness :
    (heapOneEmpty.size = 0 ∧
      _min_heap_top (some heapOneEmpty) false = (NULL_POINTER, none)) ∧
    (heapOneFull.size = heapOneFull.capacity ∧
      _min_heap_insert (some heapOneFull) none = (NULL_POINTER, some heapOneFull)) ∧
    _min_heap_remove (some heapNoCompare) 0 true = (NULL_POINTER, some heapNoCompare, none) ∧
    _min_heap_remove (some heapNoCompare) 5 true = (NULL_POINTER, some heapNoCompare, none) :=
  ⟨⟨rfl, C10_null_error_dominates_state_errors.1 heapOneEmpty rfl⟩,
    ⟨rfl, C10_null_error_dominates_state_errors.2.1 heapOneFull rfl⟩,
    C10_null_error_dominates_state_errors.2.2.1 heapNoCompare 0 true rfl rfl,
    C10_null_error_dominates_state_errors.2.2.2 heapNoCompare 5 true rfl (by decide)⟩

/-- C3: on a live heap with `0 < size` and a valid index, remove follows
exactly the specified steps — swap with the last occupied slot (a step
that changes an element slot only when `size > 1` and `index` is not
the last occupied slot), decrement, optional copy-out of the value at
slot `size`, `OK` with no re-heapify when `index = size`, and otherwise
the three-way dispatch on the comparison of the moved-in element with
the removed one, sifting up when negative, down when positive, and
nothing when zero — never both directions.  The code's buffer agrees
with `removeSpec` (the transcription of the claimed steps) on every
element slot `x < capacity`; slot `capacity` is the code's swap scratch
and holds no element. -/
theorem C3_remove_follows_the_specified_steps {α : Type} [LinearOrder α]
    {cmp : α → α → Int} (hcmp : cmpConsistent cmp) (h : MinHeapInterface α)
    (d : Nat → α) (index : Nat) (outP : Bool)
    (hcm : h.compare = some cmp) (hd : h.data = some d)
    (hs0 : 0 < h.size) (hsc : h.size ≤ h.capacity) (hix : index < h.size) :
    (_min_heap_remove (some h) index outP).1 = OK ∧
    (_min_heap_remove (some h) index outP).2.2 =
      (removeSpec cmp h.size d index outP).2.2 ∧
    ∃ h', (_min_heap_remove (some h) index outP).2.1 = some h' ∧
      h'.size = (removeSpec cmp h.size d index outP).2.1 ∧
      ∃ d', h'.data = some d' ∧
        ∀ x, x < h.capacity → d' x = (removeSpec cmp h.size d index outP).1 x :=
  remove_eq_removeSpec hcmp h d index outP hcm hd hs0 hsc hix

/-- Buffer of the C3/C5 witness heap: the seven-element heap-ordered
array `[1, 2, 10, 3, 4, 11, 12]` (the test suite's down-heapify
scenario in integer form). -/
def dSeven : Nat → Int := fun j => ([1, 2, 10, 3, 4, 11, 12] : List Int).getD j 0

/-- The C3/C5 witness heap: seven stored elements, capacity ten. -/
def heapSeven : MinHeapInterface Int :=
  { data_size := 4, size := 7, capacity := 10,
    compare := some min_heap_compare_int, data := some dSeven }

/-- Witness for C3: removing the root of the seven-element heap. -/
theorem C3_remove_follows_the_specified_steps_witness :
    cmpConsistent min_heap_compare_int ∧ 0 < heapSeven.size ∧
    heapSeven.size ≤ heapSeven.capacity ∧ 0 < heapSeven.size ∧
    ((_min_heap_remove (some heapSeven) 0 true).1 = OK ∧
      (_min_heap_remove (some heapSeven) 0 true).2.2 =
        (removeSpec min_heap_compare_int heapSeven.size dSeven 0 true).2.2 ∧
      ∃ h', (_min_heap_remove (some heapSeven) 0 true).2.1 = some h' ∧
        h'.size = (removeSpec min_heap_compare_int heapSeven.size dSeven 0 true).2.1 ∧
        ∃ d', h'.data = some d' ∧
          ∀ x, x < heapSeven.capacity →
            d' x = (removeSpec min_heap_compare_int heapSeven.size dSeven 0 true).1 x) :=
  ⟨min_heap_compare_int_consistent, by decide, by decide, by decide,
    C3_remove_follows_the_specified_steps min_heap_compare_int_consistent heapSeven
      dSeven 0 true rfl rfl (by decide) (by decide) (by decide)⟩

/-- C5: on a live non-empty heap with a valid index, remove with a
non-null `out` returns `OK` and copies into `out` exactly the value the
removed slot held before the call (read from slot `size` after the swap
and the decrement); with `out` absent nothing is copied and the return
code and resulting heap are identical. -/
theorem C5_remove_copies_removed_value {α : Type} [LinearOrder α]
    {cmp : α → α → Int} (hcmp : cmpConsistent cmp) (h : MinHeapInterface α)
    (d : Nat → α) (index : Nat)
    (hcm : h.compare = some cmp) (hd : h.data = some d)
    (hs0 : 0 < h.size) (hsc : h.size ≤ h.capacity) (hix : index < h.size) :
    (_min_heap_remove (some h) index true).1 = OK ∧
    (_min_heap_remove (some h) index true).2.2 = some (d index) ∧
    (_min_heap_remove (some h) index false).2.2 = none ∧
    (_min_heap_remove (some h) index false).1 =
      (_min_heap_remove (some h) index true).1 ∧
    (_min_heap_remove (some h) index false).2.1 =
      (_min_heap_remove (some h) index true).2.1 := by
  obtain ⟨hok, hout, _⟩ := remove_eq_removeSpec hcmp h d index true hcm hd hs0 hsc hix
  refine ⟨hok, ?_, remove_out_none _ _,
    (remove_out_indep _ _ _ _).1, (remove_out_indep _ _ _ _).2⟩
  rw [hout, removeSpec_out cmp h.size d index true hs0 hix]
  rfl

/-- Witness for C5: removing index 3 (value 3) of the seven-element
heap copies 3 out. -/
theorem C5_remove_copies_removed_value_witness :
    cmpConsistent min_heap_compare_int ∧ 0 < heapSeven.size ∧
    (3 : Nat) < heapSeven.size ∧
    ((_min_heap_remove (some heapSeven) 3 true).1 = OK ∧
      (_min_heap_remove (some heapSeven) 3 true).2.2 = some (dSeven 3) ∧
      (_min_heap_remove (some heapSeven) 3 false).2.2 = none ∧
      (_min_heap_remove (some heapSeven) 3 false).1 =
        (_min_heap_remove (some heapSeven) 3 true).1 ∧
      (_min_heap_remove (some heapSeven) 3 false).2.1 =
        (_min_heap_remove (some heapSeven) 3 true).2.1) :=
  ⟨min_heap_compare_int_consistent, by decide, by decide,
    C5_remove_copies_removed_value min_heap_compare_int_consistent heapSeven dSeven 3
      rfl rfl (by decide) (by decide) (by decide)⟩

/-- C6: on a live non-empty heap-ordered heap, `top` with a non-null
`out` returns `OK` and copies `buffer[0]`, which is `≤` (per the
comparator) every stored element; `top` performs no store through the
heap pointer (the embedding returns only the copied value), fails
`NULL_POINTER` when the heap handle, the `out` pointer or the buffer is
absent, and fails `EMPTY` when `size = 0`. -/
theorem C6_top_copies_minimum {α : Type} [LinearOrder α] {cmp : α → α → Int}
    (hcmp : cmpConsistent cmp) (h : MinHeapInterface α) (d : Nat → α)
    (hd : h.data = some d) (hs0 : 0 < h.size)
    (hord : heapOrderedCmp cmp h.size d) :
    _min_heap_top (some h) true = (OK, some (d 0)) ∧
    (∀ i, i < h.size → cmp (d 0) (d i) ≤ 0) ∧
    _min_heap_top (none : Option (MinHeapInterface α)) true = (NULL_POINTER, none) ∧
    (∀ h2 : MinHeapInterface α, _min_heap_top (some h2) false = (NULL_POINTER, none)) ∧
    (∀ h2 : MinHeapInterface α, h2.data = none →
      _min_heap_top (some h2) true = (NULL_POINTER, none)) ∧
    (∀ (h2 : MinHeapInterface α) (d2 : Nat → α), h2.data = some d2 → h2.size = 0 →
      _min_heap_top (some h2) true = (EMPTY, none)) := by
  have hordLe := (heapOrderedCmp_iff_le hcmp _ _).mp hord
  refine ⟨?_, ?_, rfl, fun h2 => rfl, fun h2 hd2 => ?_, fun h2 d2 hd2 hz => ?_⟩
  · simp [_min_heap_top, hd, show ¬ h.size = 0 by omega]
  · intro i hi
    have hmin := hordLe.root_min i hi
    by_contra hpos
    exact absurd ((hcmp.pos_iff _ _).mp (not_le.mp hpos)) (not_lt.mpr hmin)
  · simp [_min_heap_top, hd2]
  · simp [_min_heap_top, hd2, hz]

/-- Witness for C6 at the seven-element heap: `top` copies the root 1. -/
theorem C6_top_copies_minimum_witness :
    cmpConsistent min_heap_compare_int ∧ 0 < heapSeven.size ∧
    heapOrderedCmp min_heap_compare_int heapSeven.size dSeven ∧
    (_min_heap_top (some heapSeven) true = (OK, some (dSeven 0)) ∧
      (∀ i, i < heapSeven.size → min_heap_compare_int (dSeven 0) (dSeven i) ≤ 0) ∧
      _min_heap_top (none : Option (MinHeapInterface Int)) true = (NULL_POINTER, none) ∧
      (∀ h2 : MinHeapInterface Int, _min_heap_top (some h2) false = (NULL_POINTER, none)) ∧
      (∀ h2 : MinHeapInterface Int, h2.data = none →
        _min_heap_top (some h2) true = (NULL_POINTER, none)) ∧
      (∀ (h2 : MinHeapInterface Int) (d2 : Nat → Int), h2.data = some d2 → h2.size = 0 →
        _min_heap_top (some h2) true = (EMPTY, none))) :=
  ⟨min_heap_compare_int_consistent, by decide, by decide,
    C6_top_copies_minimum min_heap_compare_int_consistent heapSeven dSeven rfl
      (by decide) (by decide)⟩

/-- C7: starting from a freshly initialized heap, after any interleaved
sequence of calls the number `m` of successful removes never exceeds the
number `k` of successful inserts, `size` equals `k - m` (each successful
insert adds exactly 1, each successful remove subtracts exactly 1, and
failed calls leave `size` unchanged), and `size` never exceeds the
capacity fixed at init; quantifying over all call lists covers every
intermediate point of a run. -/
theorem C7_size_bookkeeping {α : Type} [LinearOrder α] (cmp : α → α → Int)
    (hcmp : cmpConsistent cmp) (ds cap : Nat) (z : α) (ops : List (HeapOp α)) :
    (runCounts (freshHeap α ds cap cmp z) ops).2 ≤
      (runCounts (freshHeap α ds cap cmp z) ops).1 ∧
    (runOps (freshHeap α ds cap cmp z) ops).size =
      (runCounts (freshHeap α ds cap cmp z) ops).1 -
        (runCounts (freshHeap α ds cap cmp z) ops).2 ∧
    (runOps (freshHeap α ds cap cmp z) ops).size ≤ cap := by
  have hadd := runOps_size_count hcmp ops _ (freshHeap_liveOrdered cmp ds cap z)
  obtain ⟨⟨_, hsz, _⟩, hcap⟩ :=
    runOps_liveOrdered hcmp ops _ (freshHeap_liveOrdered cmp ds cap z)
  have hfs : (freshHeap α ds cap cmp z).size = 0 := rfl
  rw [hfs] at hadd
  have hcap' : (runOps (freshHeap α ds cap cmp z) ops).capacity = cap := hcap
  omega

/-- Witness for C7: four calls, one of them a remove, on a capacity-two
heap (the final insert fails with `FULL`). -/
theorem C7_size_bookkeeping_witness :
    cmpConsistent min_heap_compare_int ∧
    ((runCounts (freshHeap Int 4 2 min_heap_compare_int 0)
        [.ins 3, .ins 1, .rem 1 false, .ins 2, .ins 5]).2 ≤
      (runCounts (freshHeap Int 4 2 min_heap_compare_int 0)
        [.ins 3, .ins 1, .rem 1 false, .ins 2, .ins 5]).1 ∧
      (runOps (freshHeap Int 4 2 min_heap_compare_int 0)
        [.ins 3, .ins 1, .rem 1 false, .ins 2, .ins 5]).size =
        (runCounts (freshHeap Int 4 2 min_heap_compare_int 0)
          [.ins 3, .ins 1, .rem 1 false, .ins 2, .ins 5]).1 -
          (runCounts (freshHeap Int 4 2 min_heap_compare_int 0)
            [.ins 3, .ins 1, .rem 1 false, .ins 2, .ins 5]).2 ∧
      (runOps (freshHeap Int 4 2 min_heap_compare_int 0)
        [.ins 3, .ins 1, .rem 1 false, .ins 2, .ins 5]).size ≤ 2) :=
  ⟨min_heap_compare_int_consistent,
    C7_size_bookkeeping min_heap_compare_int min_heap_compare_int_consistent 4 2 0
      [.ins 3, .ins 1, .rem 1 false, .ins 2, .ins 5]⟩

/-- C9: `find` returns the smallest index in `[0, size)` whose slot
compares equal to the item (first disjunct), or `-1` when no stored
element compares equal; it also returns `-1` when the heap handle, the
item, the comparator or the buffer is absent (the empty-heap case is the
no-match case with `size = 0`). -/
theorem C9_find_first_matching_index {α : Type} (h : MinHeapInterface α) (it : α)
    (cmp : α → α → Int) (d : Nat → α)
    (hcm : h.compare = some cmp) (hd : h.data = some d) :
    ((∃ k, k < h.size ∧ cmp it (d k) = 0 ∧ (∀ j, j < k → cmp it (d j) ≠ 0) ∧
        _min_heap_find (some h) (some it) = (k : Int)) ∨
      ((∀ j, j < h.size → cmp it (d j) ≠ 0) ∧
        _min_heap_find (some h) (some it) = -1)) ∧
    _min_heap_find (none : Option (MinHeapInterface α)) (some it) = -1 ∧
    _min_heap_find (some h) none = -1 ∧
    (∀ h2 : MinHeapInterface α, h2.compare = none →
      _min_heap_find (some h2) (some it) = -1) ∧
    (∀ h2 : MinHeapInterface α, h2.data = none →
      _min_heap_find (some h2) (some it) = -1) := by
  refine ⟨?_, rfl, ?_, fun h2 hc2 => ?_, fun h2 hd2 => ?_⟩
  · by_cases hz : h.size = 0
    · right
      refine ⟨fun j hj => by omega, ?_⟩
      simp [_min_heap_find, hcm, hz]
    · have hred : _min_heap_find (some h) (some it) = findLoop cmp it d h.size h.size 0 := by
        simp [_min_heap_find, hcm, hd, hz]
      by_cases hm : ∃ j, j < h.size ∧ cmp it (d j) = 0
      · left
        have hspec := Nat.find_spec hm
        refine ⟨Nat.find hm, hspec.1, hspec.2, ?_, ?_⟩
        · intro j hj
          have := Nat.find_min hm hj
          intro hj0
          exact this ⟨lt_trans hj hspec.1, hj0⟩
        · rw [hred]
          exact findLoop_found cmp it d h.size h.size 0 (Nat.find hm) (by omega)
            hspec.1 hspec.2
            (fun j _ hjk => fun hj0 => Nat.find_min hm hjk ⟨lt_trans hjk hspec.1, hj0⟩)
            (by omega)
      · right
        push_neg at hm
        refine ⟨fun j hj => hm j hj, ?_⟩
        rw [hred]
        exact findLoop_none cmp it d h.size h.size 0 (by omega)
          (fun j _ hjs => hm j hjs)
  · simp [_min_heap_find]
  · simp [_min_heap_find, hc2]
  · rcases hc2 : h2.compare with _ | c
    · simp [_min_heap_find, hc2]
    · simp only [_min_heap_find, hc2, hd2]
      split_ifs <;> rfl

/-- Witness for C9: in the stored set `{7, 3, 6}` the value 3 is found
at its array index. -/
def heapFind : MinHeapInterface Int :=
  { data_size := 4, size := 3, capacity := 10,
    compare := some min_heap_compare_int,
    data := some (fun j => ([7, 3, 6] : List Int).getD j 0) }

/-- Witness for C9 at the `{7, 3, 6}` heap. -/
theorem C9_find_first_matching_index_witness :
    heapFind.compare = some min_heap_compare_int ∧
    (((∃ k, k < heapFind.size ∧
          min_heap_compare_int 3 (([7, 3, 6] : List Int).getD k 0) = 0 ∧
          (∀ j, j < k → min_heap_compare_int 3 (([7, 3, 6] : List Int).getD j 0) ≠ 0) ∧
          _min_heap_find (some heapFind) (some 3) = (k : Int)) ∨
        ((∀ j, j < heapFind.size →
            min_heap_compare_int 3 (([7, 3, 6] : List Int).getD j 0) ≠ 0) ∧
          _min_heap_find (some heapFind) (some 3) = -1)) ∧
      _min_heap_find (none : Option (MinHeapInterface Int)) (some 3) = -1 ∧
      _min_heap_find (some heapFind) none = -1 ∧
      (∀ h2 : MinHeapInterface Int, h2.compare = none →
        _min_heap_find (some h2) (some 3) = -1) ∧
      (∀ h2 : MinHeapInterface Int, h2.data = none →
        _min_heap_find (some h2) (some 3) = -1)) :=
  ⟨rfl, C9_find_first_matching_index heapFind 3 min_heap_compare_int
    (fun j => ([7, 3, 6] : List Int).getD j 0) rfl rfl⟩

end MinHeapSW
